import Mathlib

/-!
Verification development for the headless session-resync engine
(`crates/headless/src/headless.rs`).

The engine is shallowly embedded: the `DevServer.projects` hash map becomes an
association list with hash-map semantics (unique keys, `insert` replaces),
RPC outcomes become explicit oracles, and each handler is a pure function
that additionally returns the trace of externally visible events it performed
(project creation, share RPCs, unshares, the resync RPC, reshare marks).
-/

set_option autoImplicit false

namespace Headless

/-- One entry of the pushed desired-state payload (`proto::RemoteProject`):
a remote workspace id together with the local path to share. -/
structure RemoteProject where
  id : Nat
  path : String
deriving DecidableEq

/-- One entry of the resync response (`proto::ResharedProject`): the remote
numeric project id and the descriptors returned by the server. -/
structure ResharedProject where
  id : Nat
  worktrees : List Nat
deriving DecidableEq

/-- Modelled from the spec: the Workspace Handle collaborator (the `Project`
model lives in `crates/project`, outside the sources under verification).
Per the spec it exposes `create_local(path)`, `metadata_for_resync()`
(here the `worktrees` descriptor list), `mark_shared(remote_project_id)`
(here `remoteId := some pid`), `mark_unshared()` and `mark_reshared(response)`
(here `resharedWith := some response`). -/
structure Proj where
  path : String
  worktrees : List Nat
  remoteId : Option Nat
  resharedWith : Option ResharedProject
deriving DecidableEq

/-- Externally visible actions of the engine, recorded as a trace. -/
inductive Event where
  | createProject (id : Nat) (path : String)
  | shareRPC (id : Nat) (worktrees : List Nat)
  | insertTracked (id : Nat)
  | removeTracked (id : Nat)
  | unshareWs (id : Nat)
  | resyncRPC (payload : List (Nat × List Nat))
  | reshareMark (id : Nat) (ok : Bool)
deriving DecidableEq

/-- The tracked-workspaces map `DevServer.projects`, embedded as an
association list from remote workspace id to workspace handle. -/
abbrev TrackedMap := List (Nat × Proj)

/-- `HashMap::contains_key`. -/
def mapContains (m : TrackedMap) (k : Nat) : Bool :=
  m.any (fun e => e.1 == k)

/-- `HashMap::insert`: replaces the value when the key is present. -/
def mapInsert (m : TrackedMap) (k : Nat) (v : Proj) : TrackedMap :=
  if mapContains m k then m.map (fun e => if e.1 == k then (k, v) else e)
  else m ++ [(k, v)]

/-- `HashMap::remove`. -/
def mapRemove (m : TrackedMap) (k : Nat) : TrackedMap :=
  m.filter (fun e => e.1 != k)

/-- `HashMap::get`. -/
def mapLookup (m : TrackedMap) (k : Nat) : Option Proj :=
  (m.find? (fun e => e.1 == k)).map (fun e => e.2)

/-- `HashMap::keys`. -/
def mapKeys (m : TrackedMap) : List Nat :=
  m.map (fun e => e.1)

/-- Outcomes of the fallible collaborator steps of `share_project`, indexed
by the sequence number of the addition inside one reconciliation pass:
the worktree creation/indexing step (yielding the worktree descriptors)
and the `ShareRemoteProject` RPC (yielding the numeric project id). -/
structure Env where
  worktreeOutcome : Nat → Except String (List Nat)
  shareOutcome : Nat → Except String Nat

/-- The `removed_projects` diff of `handle_dev_server_instructions`:
keys of the tracked map that no payload entry mentions. -/
def computeRemoved (m : TrackedMap) (payload : List RemoteProject) : List Nat :=
  (mapKeys m).filter (fun k => ! payload.any (fun p => p.id == k))

/-- The `added_projects` diff of `handle_dev_server_instructions`:
payload entries whose id is not a key of the tracked map. -/
def computeAdded (m : TrackedMap) (payload : List RemoteProject) : List RemoteProject :=
  payload.filter (fun p => ! mapContains m p.id)

/-- `DevServer::share_project` for the `k`-th addition of a pass: create a
local project, create and index the worktree (fallible), send the
`ShareRemoteProject` RPC (fallible), mark the project shared with the
returned id and insert it into the tracked map.  On error the tracked map
is left unchanged and the error is surfaced. -/
def share_project (env : Env) (k : Nat) (m : TrackedMap) (rp : RemoteProject) :
    Option String × TrackedMap × List Event :=
  match env.worktreeOutcome k with
  | .error e => (some e, m, [Event.createProject rp.id rp.path])
  | .ok wts =>
    match env.shareOutcome k with
    | .error e => (some e, m, [Event.createProject rp.id rp.path, Event.shareRPC rp.id wts])
    | .ok pid =>
      let proj : Proj :=
        { path := rp.path, worktrees := wts, remoteId := some pid, resharedWith := none }
      (none, mapInsert m rp.id proj,
        [Event.createProject rp.id rp.path, Event.shareRPC rp.id wts,
         Event.insertTracked rp.id])

/-- The addition loop of `handle_dev_server_instructions`: each addition is
awaited in turn and its error (`.await?`) aborts the loop, keeping the
state reached so far. -/
def addAll (env : Env) (k : Nat) (m : TrackedMap) :
    List RemoteProject → Option String × TrackedMap × List Event
  | [] => (none, m, [])
  | rp :: rest =>
    match share_project env k m rp with
    | (some e, m1, evs) => (some e, m1, evs)
    | (none, m1, evs) =>
      let r := addAll env (k + 1) m1 rest
      (r.1, r.2.1, evs ++ r.2.2)

/-- `DevServer::unshare_project`: remove the key and mark the removed
workspace unshared; absent keys are ignored. -/
def unshare_project (m : TrackedMap) (k : Nat) : TrackedMap × List Event :=
  if mapContains m k then
    (mapRemove m k, [Event.removeTracked k, Event.unshareWs k])
  else (m, [])

/-- The removal loop of `handle_dev_server_instructions`. -/
def removeAll (m : TrackedMap) : List Nat → TrackedMap × List Event
  | [] => (m, [])
  | k :: rest =>
    let r := unshare_project m k
    let r2 := removeAll r.1 rest
    (r2.1, r.2 ++ r2.2)

/-- `DevServer::handle_dev_server_instructions`: compute both diffs against
the initial tracked map, perform the additions sequentially (an addition
error aborts the handler), then perform the removals. -/
def handle_dev_server_instructions (env : Env) (m : TrackedMap)
    (payload : List RemoteProject) : Option String × TrackedMap × List Event :=
  let removed := computeRemoved m payload
  let added := computeAdded m payload
  match addAll env 0 m added with
  | (some e, m1, evs) => (some e, m1, evs)
  | (none, m1, evs) =>
    let r := removeAll m1 removed
    (none, r.1, evs ++ r.2)

/-- A map from remote numeric project id to tracked-map key, used by
`rejoin` to model the local `projects : HashMap<u64, Model<Project>>`
(a handle identity is represented by the key it has in the tracked map). -/
abbrev ByRemoteId := List (Nat × Nat)

/-- `HashMap::contains_key` for the by-remote-id map. -/
def idMapContains (m : ByRemoteId) (k : Nat) : Bool :=
  m.any (fun e => e.1 == k)

/-- `HashMap::insert` for the by-remote-id map. -/
def idMapInsert (m : ByRemoteId) (k v : Nat) : ByRemoteId :=
  if idMapContains m k then m.map (fun e => if e.1 == k then (k, v) else e)
  else m ++ [(k, v)]

/-- `HashMap::get` for the by-remote-id map. -/
def idMapLookup (m : ByRemoteId) (k : Nat) : Option Nat :=
  (m.find? (fun e => e.1 == k)).map (fun e => e.2)

/-- The snapshot loop of `DevServer::rejoin`: iterate over the tracked map;
each workspace with a remote id contributes one `UpdateProject` entry
`(project_id, worktrees)` to the request payload and one entry to the
by-remote-id handle map; workspaces without a remote id are skipped
(the `?` inside the `flat_map`). -/
def rejoin_build (req : List (Nat × List Nat)) (byId : ByRemoteId) :
    TrackedMap → List (Nat × List Nat) × ByRemoteId
  | [] => (req, byId)
  | (k, p) :: rest =>
    match p.remoteId with
    | none => rejoin_build req byId rest
    | some pid =>
      rejoin_build (req ++ [(pid, p.worktrees)]) (idMapInsert byId pid k) rest

/-- `Project::reshared` on the handle stored at key `key` of the tracked map
(modelled from the spec: `mark_reshared(response)` records the response). -/
def markReshared (m : TrackedMap) (key : Nat) (r : ResharedProject) : TrackedMap :=
  m.map (fun e => if e.1 == key then (e.1, { e.2 with resharedWith := some r }) else e)

/-- The response loop of `DevServer::rejoin`: for each reshared project of
the response, look its numeric id up in the by-remote-id map; on a hit,
mark the matching workspace reshared. `reshareOk` models the fallible
`Project::reshared` call, keyed by the response entry's id: a failure is
logged (`log_err`) and the loop continues, leaving that workspace
unchanged. -/
def applyResync (reshareOk : Nat → Bool) (byId : ByRemoteId) (m : TrackedMap) :
    List ResharedProject → TrackedMap × List Event
  | [] => (m, [])
  | r :: rest =>
    match idMapLookup byId r.id with
    | none => applyResync reshareOk byId m rest
    | some key =>
      let m1 := if reshareOk r.id then markReshared m key r else m
      let r2 := applyResync reshareOk byId m1 rest
      (r2.1, Event.reshareMark r.id (reshareOk r.id) :: r2.2)

/-- `DevServer::rejoin`: snapshot the tracked map, send one
`ReconnectDevServer` RPC carrying the snapshot, and apply the response.
The tracked map never loses a key here. -/
def rejoin (reshareOk : Nat → Bool) (m : TrackedMap)
    (response : List ResharedProject) : TrackedMap × List Event :=
  let snap := rejoin_build [] [] m
  let r := applyResync reshareOk snap.2 m response
  (r.1, Event.resyncRPC snap.1 :: r.2)

/-- The main loop of `DevServer::maintain_connection` over the remaining
status updates (`true` = `is_connected`).  Each connected status triggers
one `rejoin` run; `rejoinOk k` is the outcome of the `k`-th run, and a
failing run ends the loop with an error (`.await?`).  The stream closing
ends the loop with `Ok`.  The result is (clean exit?, number of resync
RPCs sent). -/
def superviseLoop (rejoinOk : Nat → Bool) : List Bool → Nat → Bool × Nat
  | [], _ => (true, 0)
  | s :: rest, k =>
    if s then
      if rejoinOk k then
        let r := superviseLoop rejoinOk rest (k + 1)
        (r.1, r.2 + 1)
      else (false, 1)
    else superviseLoop rejoinOk rest k

/-- `DevServer::maintain_connection`: drain the pending status and read the
current one (`init`); if it is connected, consume one further status
update before entering the main loop over the rest. -/
def maintain_connection (rejoinOk : Nat → Bool) (init : Bool)
    (updates : List Bool) : Bool × Nat :=
  if init then superviseLoop rejoinOk (updates.drop 1) 0
  else superviseLoop rejoinOk updates 0

/-- A `Disconnected → Connected` adjacent transition in an observed status
sequence. -/
def hasReconnectTransition : List Bool → Bool
  | false :: true :: _ => true
  | _ :: rest => hasReconnectTransition rest
  | [] => false

/-- Addition-side events of a reconciliation pass. -/
def isAddEvent : Event → Bool
  | Event.createProject _ _ => true
  | Event.shareRPC _ _ => true
  | Event.insertTracked _ => true
  | _ => false

/-- Removal-side events of a reconciliation pass. -/
def isRemoveEvent : Event → Bool
  | Event.removeTracked _ => true
  | Event.unshareWs _ => true
  | _ => false

/-- The `ShareRemoteProject` RPC events of a trace. -/
def isShareRPCEvent : Event → Bool
  | Event.shareRPC _ _ => true
  | _ => false

/-- The `ReconnectDevServer` RPC events of a trace. -/
def isResyncEvent : Event → Bool
  | Event.resyncRPC _ => true
  | _ => false

/-! ### Concrete fixtures used to evaluate the model -/

/-- An environment in which every collaborator step succeeds. -/
def envAllOk : Env :=
  { worktreeOutcome := fun _ => Except.ok [5], shareOutcome := fun k => Except.ok (100 + k) }

/-- An environment in which the first `ShareRemoteProject` RPC fails. -/
def envShareFail : Env :=
  { worktreeOutcome := fun _ => Except.ok [5],
    shareOutcome := fun k => if k == 0 then Except.error "share failed" else Except.ok 100 }

/-- A tracked workspace used as pre-existing state in concrete runs. -/
def projA : Proj := { path := "/p", worktrees := [3], remoteId := some 90, resharedWith := none }

/-- A tracked map with three shared workspaces, remote ids 70, 80, 90. -/
def trackedThree : TrackedMap :=
  [(1, { path := "/a", worktrees := [7], remoteId := some 70, resharedWith := none }),
   (2, { path := "/b", worktrees := [8], remoteId := some 80, resharedWith := none }),
   (3, { path := "/c", worktrees := [9], remoteId := some 90, resharedWith := none })]

/-! ### Basic facts about the tracked map -/

theorem mapContains_iff (m : TrackedMap) (i : Nat) :
    mapContains m i = true ↔ ∃ p, (i, p) ∈ m := by
  simp only [mapContains, List.any_eq_true, beq_iff_eq]
  constructor
  · rintro ⟨⟨a, b⟩, hab, rfl⟩
    exact ⟨b, hab⟩
  · rintro ⟨p, hp⟩
    exact ⟨(i, p), hp, rfl⟩

theorem mem_mapKeys (m : TrackedMap) (i : Nat) :
    i ∈ mapKeys m ↔ mapContains m i = true := by
  rw [mapContains_iff]
  simp only [mapKeys, List.mem_map]
  constructor
  · rintro ⟨⟨a, b⟩, hab, rfl⟩
    exact ⟨b, hab⟩
  · rintro ⟨p, hp⟩
    exact ⟨(i, p), hp, rfl⟩

theorem any_fst_insertFun (m : TrackedMap) (k : Nat) (v : Proj) (i : Nat) :
    (m.map (fun e => if e.1 == k then (k, v) else e)).any (fun e => e.1 == i)
      = m.any (fun e => e.1 == i) := by
  induction m with
  | nil => rfl
  | cons e rest ih =>
    simp only [List.map_cons, List.any_cons, ih]
    by_cases h : e.1 = k
    · subst h; simp
    · simp [h]

theorem mapContains_mapInsert (m : TrackedMap) (k : Nat) (v : Proj) (i : Nat) :
    mapContains (mapInsert m k v) i = true ↔ (i = k ∨ mapContains m i = true) := by
  unfold mapInsert
  by_cases h : mapContains m k = true
  · rw [if_pos h]
    simp only [mapContains, any_fst_insertFun]
    constructor
    · exact fun hc => Or.inr hc
    · rintro (rfl | hc)
      · exact h
      · exact hc
  · rw [if_neg h]
    simp only [mapContains, List.any_append, List.any_cons, List.any_nil, Bool.or_false,
      Bool.or_eq_true, beq_iff_eq]
    constructor
    · rintro (hc | hk)
      · exact Or.inr hc
      · exact Or.inl hk.symm
    · rintro (rfl | hc)
      · exact Or.inr rfl
      · exact Or.inl hc

theorem mapContains_mapRemove (m : TrackedMap) (k i : Nat) :
    mapContains (mapRemove m k) i = true ↔ (mapContains m i = true ∧ i ≠ k) := by
  simp only [mapRemove, mapContains_iff, List.mem_filter, bne_iff_ne]
  constructor
  · rintro ⟨p, hp, hne⟩
    exact ⟨⟨p, hp⟩, hne⟩
  · rintro ⟨⟨p, hp⟩, hne⟩
    exact ⟨p, hp, hne⟩

/-! ### The addition loop -/

theorem addAll_ok_contains (env : Env) (l : List RemoteProject) :
    ∀ k m m' evs, addAll env k m l = (none, m', evs) →
      ∀ i, (mapContains m' i = true ↔ mapContains m i = true ∨ ∃ p, p ∈ l ∧ p.id = i) := by
  induction l with
  | nil =>
    intro k m m' evs h i
    simp only [addAll, Prod.mk.injEq] at h
    rw [h.2.1]
    simp
  | cons rp rest ih =>
    intro k m m' evs h i
    rcases hw : env.worktreeOutcome k with e | wts
    · simp [addAll, share_project, hw] at h
    rcases hs : env.shareOutcome k with e | pid
    · simp [addAll, share_project, hw, hs] at h
    rcases hrec : addAll env (k + 1)
        (mapInsert m rp.id
          { path := rp.path, worktrees := wts, remoteId := some pid, resharedWith := none })
        rest with ⟨r1, m2, evs2⟩
    simp only [addAll, share_project, hw, hs, hrec, Prod.mk.injEq] at h
    obtain ⟨h1, h2, _⟩ := h
    subst h1; subst h2
    rw [ih (k + 1) _ _ _ hrec i, mapContains_mapInsert]
    constructor
    · rintro ((rfl | hm) | ⟨p, hp, hpi⟩)
      · exact Or.inr ⟨rp, List.mem_cons_self _ _, rfl⟩
      · exact Or.inl hm
      · exact Or.inr ⟨p, List.mem_cons_of_mem _ hp, hpi⟩
    · rintro (hm | ⟨p, hp, hpi⟩)
      · exact Or.inl (Or.inr hm)
      · rcases List.mem_cons.mp hp with rfl | hp
        · exact Or.inl (Or.inl hpi.symm)
        · exact Or.inr ⟨p, hp, hpi⟩

theorem addAll_error_state (env : Env) (l : List RemoteProject) :
    ∀ k m m' evs e, addAll env k m l = (some e, m', evs) →
      (∀ i, mapContains m i = true → mapContains m' i = true) ∧
      ∃ pre rp suf, l = pre ++ rp :: suf ∧ ∀ q ∈ pre, mapContains m' q.id = true := by
  induction l with
  | nil =>
    intro k m m' evs e h
    simp [addAll] at h
  | cons rp rest ih =>
    intro k m m' evs e h
    rcases hw : env.worktreeOutcome k with e1 | wts
    · simp only [addAll, share_project, hw, Prod.mk.injEq] at h
      obtain ⟨_, h2, _⟩ := h
      subst h2
      exact ⟨fun i hi => hi, [], rp, rest, rfl, by simp⟩
    rcases hs : env.shareOutcome k with e1 | pid
    · simp only [addAll, share_project, hw, hs, Prod.mk.injEq] at h
      obtain ⟨_, h2, _⟩ := h
      subst h2
      exact ⟨fun i hi => hi, [], rp, rest, rfl, by simp⟩
    rcases hrec : addAll env (k + 1)
        (mapInsert m rp.id
          { path := rp.path, worktrees := wts, remoteId := some pid, resharedWith := none })
        rest with ⟨r1, m2, evs2⟩
    simp only [addAll, share_project, hw, hs, hrec, Prod.mk.injEq] at h
    obtain ⟨h1, h2, _⟩ := h
    subst h1; subst h2
    obtain ⟨hmono, pre, rp2, suf, hsplit, hpre⟩ := ih (k + 1) _ _ _ e hrec
    refine ⟨?_, rp :: pre, rp2, suf, by simp [hsplit], ?_⟩
    · intro i hi
      exact hmono i ((mapContains_mapInsert _ _ _ _).mpr (Or.inr hi))
    · intro q hq
      rcases List.mem_cons.mp hq with rfl | hq
      · exact hmono q.id ((mapContains_mapInsert _ _ _ _).mpr (Or.inl rfl))
      · exact hpre q hq

/-! ### The removal loop -/

theorem unshare_project_contains (m : TrackedMap) (k i : Nat) :
    mapContains (unshare_project m k).1 i = true ↔
      (mapContains m i = true ∧ i ≠ k) := by
  unfold unshare_project
  by_cases h : mapContains m k = true
  · rw [if_pos h]
    exact mapContains_mapRemove m k i
  · rw [if_neg h]
    constructor
    · intro hc
      refine ⟨hc, ?_⟩
      rintro rfl
      exact h hc
    · exact fun hc => hc.1

theorem removeAll_contains (ks : List Nat) :
    ∀ m i, mapContains (removeAll m ks).1 i = true ↔
      (mapContains m i = true ∧ i ∉ ks) := by
  induction ks with
  | nil =>
    intro m i
    simp [removeAll]
  | cons k rest ih =>
    intro m i
    simp only [removeAll]
    rw [ih, unshare_project_contains]
    simp only [List.mem_cons]
    constructor
    · rintro ⟨⟨hc, hne⟩, hrest⟩
      exact ⟨hc, by rintro (rfl | hmem); exact hne rfl; exact hrest hmem⟩
    · rintro ⟨hc, hnot⟩
      exact ⟨⟨hc, fun h => hnot (Or.inl h)⟩, fun h => hnot (Or.inr h)⟩

/-! ### Event traces of the two loops -/

theorem share_project_events (env : Env) (k : Nat) (m : TrackedMap) (rp : RemoteProject) :
    ∀ ev ∈ (share_project env k m rp).2.2, isAddEvent ev = true := by
  rcases hw : env.worktreeOutcome k with e | wts
  · simp [share_project, hw, isAddEvent]
  rcases hs : env.shareOutcome k with e | pid
  · simp [share_project, hw, hs, isAddEvent]
  · simp [share_project, hw, hs, isAddEvent]

theorem addAll_events (env : Env) (l : List RemoteProject) :
    ∀ k m, ∀ ev ∈ (addAll env k m l).2.2, isAddEvent ev = true := by
  induction l with
  | nil =>
    intro k m ev h
    simp [addAll] at h
  | cons rp rest ih =>
    intro k m ev h
    rcases hsp : share_project env k m rp with ⟨r1, m1, evs1⟩
    have hevs1 : ∀ ev ∈ evs1, isAddEvent ev = true := by
      intro ev hev
      have := share_project_events env k m rp ev
      rw [hsp] at this
      exact this hev
    cases r1 with
    | some e =>
      simp only [addAll, hsp] at h
      exact hevs1 ev h
    | none =>
      simp only [addAll, hsp, List.mem_append] at h
      rcases h with h | h
      · exact hevs1 ev h
      · exact ih (k + 1) m1 ev h

theorem unshare_project_events (m : TrackedMap) (k : Nat) :
    ∀ ev ∈ (unshare_project m k).2, isRemoveEvent ev = true := by
  unfold unshare_project
  by_cases h : mapContains m k = true
  · rw [if_pos h]
    simp [isRemoveEvent]
  · rw [if_neg h]
    simp

theorem removeAll_events (ks : List Nat) :
    ∀ m, ∀ ev ∈ (removeAll m ks).2, isRemoveEvent ev = true := by
  induction ks with
  | nil =>
    intro m ev h
    simp [removeAll] at h
  | cons k rest ih =>
    intro m ev h
    simp only [removeAll, List.mem_append] at h
    rcases h with h | h
    · exact unshare_project_events m k ev h
    · exact ih _ ev h

/-! ### Characterization of a successful reconciliation pass -/

theorem computeAdded_mem (m : TrackedMap) (D : List RemoteProject) (p : RemoteProject) :
    p ∈ computeAdded m D ↔ (p ∈ D ∧ ¬mapContains m p.id = true) := by
  simp [computeAdded]

theorem computeRemoved_mem (m : TrackedMap) (D : List RemoteProject) (i : Nat) :
    i ∈ computeRemoved m D ↔
      (mapContains m i = true ∧ ¬∃ p, p ∈ D ∧ p.id = i) := by
  simp only [computeRemoved, List.mem_filter, mem_mapKeys, Bool.not_eq_eq_eq_not,
    Bool.not_true, List.any_eq_false, beq_iff_eq]
  constructor
  · rintro ⟨hc, hall⟩
    exact ⟨hc, by rintro ⟨p, hp, rfl⟩; exact hall p hp rfl⟩
  · rintro ⟨hc, hnot⟩
    exact ⟨hc, fun p hp hpi => hnot ⟨p, hp, hpi⟩⟩

theorem handle_ok_contains (env : Env) (m : TrackedMap) (D : List RemoteProject)
    (m' : TrackedMap) (evs : List Event)
    (h : handle_dev_server_instructions env m D = (none, m', evs)) :
    ∀ i, (mapContains m' i = true ↔ ∃ p, p ∈ D ∧ p.id = i) := by
  intro i
  rcases ha : addAll env 0 m (computeAdded m D) with ⟨r1, m1, evs1⟩
  cases r1 with
  | some e =>
    simp [handle_dev_server_instructions, ha] at h
  | none =>
    simp only [handle_dev_server_instructions, ha, Prod.mk.injEq] at h
    obtain ⟨_, h2, _⟩ := h
    subst h2
    rw [removeAll_contains]
    rw [addAll_ok_contains env _ 0 m m1 evs1 ha i]
    rw [computeRemoved_mem]
    constructor
    · rintro ⟨hm1, hnr⟩
      rcases hm1 with hm | ⟨p, hp, hpi⟩
      · by_contra hnone
        exact hnr ⟨hm, hnone⟩
      · exact ⟨p, ((computeAdded_mem m D p).mp hp).1, hpi⟩
    · rintro ⟨p, hp, hpi⟩
      constructor
      · by_cases hc : mapContains m i = true
        · exact Or.inl hc
        · exact Or.inr ⟨p, (computeAdded_mem m D p).mpr ⟨hp, by rw [hpi]; exact hc⟩, hpi⟩
      · rintro ⟨_, hnot⟩
        exact hnot ⟨p, hp, hpi⟩

/-! ### Claims about the reconciliation engine -/

/-- C1: for every desired-state instruction set `D` applied by the push handler to a
session whose tracked map was initially empty, after the handler completes successfully
the key set of the tracked-workspaces map equals exactly the set of remote ids listed
in `D`: every id in `D` is present and every id absent from `D` is absent. -/
theorem c1_diff_correctness (env : Env) (D : List RemoteProject)
    (m' : TrackedMap) (evs : List Event)
    (h : handle_dev_server_instructions env [] D = (none, m', evs)) (i : Nat) :
    mapContains m' i = D.any (fun p => p.id == i) := by
  rw [Bool.eq_iff_iff, List.any_eq_true]
  rw [handle_ok_contains env [] D m' evs h i]
  simp only [beq_iff_eq]

/-- Witness for C1: pushing `[{id := 10, path := "/a"}]` onto an empty session
succeeds and leaves exactly the key 10 tracked. -/
theorem c1_diff_correctness_witness :
    handle_dev_server_instructions envAllOk [] [⟨10, "/a"⟩]
      = (none, [(10, { path := "/a", worktrees := [5], remoteId := some 100,
                       resharedWith := none })],
         [Event.createProject 10 "/a", Event.shareRPC 10 [5], Event.insertTracked 10]) ∧
    mapContains [(10, { path := "/a", worktrees := [5], remoteId := some 100,
                        resharedWith := none })] 10
      = [(⟨10, "/a"⟩ : RemoteProject)].any (fun p => p.id == 10) :=
  ⟨rfl,
   c1_diff_correctness envAllOk [⟨10, "/a"⟩]
     [(10, { path := "/a", worktrees := [5], remoteId := some 100, resharedWith := none })]
     [Event.createProject 10 "/a", Event.shareRPC 10 [5], Event.insertTracked 10] rfl 10⟩

/-- C2 counterexample: with one tracked workspace `{1}` and a push listing `{2, 3}`
whose first addition's share RPC fails, the handler aborts: workspace 3 is never
shared (no RPC for it, not tracked) and the removal of workspace 1 is never applied
(1 stays tracked, no unshare event).  This refutes the claim that a failed addition
aborts neither the sibling additions nor the batch's removals. -/
theorem c2_add_failure_counterexample :
    handle_dev_server_instructions envShareFail [(1, projA)] [⟨2, "/b"⟩, ⟨3, "/c"⟩]
      = (some "share failed", [(1, projA)],
         [Event.createProject 2 "/b", Event.shareRPC 2 [5]]) ∧
    mapContains (handle_dev_server_instructions envShareFail [(1, projA)]
      [⟨2, "/b"⟩, ⟨3, "/c"⟩]).2.1 3 = false ∧
    mapContains (handle_dev_server_instructions envShareFail [(1, projA)]
      [⟨2, "/b"⟩, ⟨3, "/c"⟩]).2.1 1 = true :=
  ⟨rfl, rfl, rfl⟩

/-- C2 (amended): a failure while adding (sharing) one workspace aborts the handler:
the remaining additions of the batch are skipped and the batch's removals are not
applied (the trace carries addition-side events only); earlier additions are not
rolled back — every previously tracked id is still tracked, and every addition that
completed before the failing one is in the tracked map. -/
theorem c2_add_failure_aborts_batch (env : Env) (m : TrackedMap)
    (D : List RemoteProject) (e : String) (m' : TrackedMap) (evs : List Event)
    (h : handle_dev_server_instructions env m D = (some e, m', evs)) :
    (∀ ev ∈ evs, isAddEvent ev = true) ∧
    (∀ i, mapContains m i = true → mapContains m' i = true) ∧
    ∃ pre rp suf, computeAdded m D = pre ++ rp :: suf ∧
      ∀ q ∈ pre, mapContains m' q.id = true := by
  rcases ha : addAll env 0 m (computeAdded m D) with ⟨r1, m1, evs1⟩
  cases r1 with
  | none => simp [handle_dev_server_instructions, ha] at h
  | some e1 =>
    simp only [handle_dev_server_instructions, ha, Prod.mk.injEq] at h
    obtain ⟨_, h2, h3⟩ := h
    subst h2; subst h3
    obtain ⟨hmono, hsplit⟩ := addAll_error_state env (computeAdded m D) 0 m m1 evs1 e1 ha
    refine ⟨?_, hmono, hsplit⟩
    intro ev hev
    have := addAll_events env (computeAdded m D) 0 m ev
    rw [ha] at this
    exact this hev

/-- Witness for C2 (amended), at the same failing run as the counterexample: the
previously tracked workspace 1 is still tracked after the aborted batch. -/
theorem c2_add_failure_aborts_batch_witness :
    mapContains [(1, projA)] 1 = true :=
  (c2_add_failure_aborts_batch envShareFail [(1, projA)] [⟨2, "/b"⟩, ⟨3, "/c"⟩]
     "share failed" [(1, projA)] [Event.createProject 2 "/b", Event.shareRPC 2 [5]]
     rfl).2.1 1 rfl

/-- C3: applying the same desired-state set twice in a row is idempotent: after a
first successful application, the second application computes an empty add-diff and
an empty remove-diff, performs no event at all (no share RPC, no creation, no
unshare, no removal) and leaves the tracked map unchanged. -/
theorem c3_idempotent (env env2 : Env) (m0 : TrackedMap) (D : List RemoteProject)
    (m1 : TrackedMap) (evs1 : List Event)
    (h : handle_dev_server_instructions env m0 D = (none, m1, evs1)) :
    computeAdded m1 D = [] ∧ computeRemoved m1 D = [] ∧
    handle_dev_server_instructions env2 m1 D = (none, m1, []) := by
  have hc := handle_ok_contains env m0 D m1 evs1 h
  have hA : computeAdded m1 D = [] := by
    rw [computeAdded, List.filter_eq_nil_iff]
    intro p hp
    have : mapContains m1 p.id = true := (hc p.id).mpr ⟨p, hp, rfl⟩
    simp [this]
  have hR : computeRemoved m1 D = [] := by
    rw [computeRemoved, List.filter_eq_nil_iff]
    intro k hk
    obtain ⟨p, hp, hpi⟩ := (hc k).mp ((mem_mapKeys m1 k).mp hk)
    have : D.any (fun p => p.id == k) = true :=
      List.any_eq_true.mpr ⟨p, hp, beq_iff_eq.mpr hpi⟩
    simp [this]
  refine ⟨hA, hR, ?_⟩
  simp [handle_dev_server_instructions, hA, hR, addAll, removeAll]

/-- Witness for C3: the push of C1's witness, applied a second time. -/
theorem c3_idempotent_witness :
    handle_dev_server_instructions envAllOk [] [⟨10, "/a"⟩]
      = (none, [(10, { path := "/a", worktrees := [5], remoteId := some 100,
                       resharedWith := none })],
         [Event.createProject 10 "/a", Event.shareRPC 10 [5], Event.insertTracked 10]) ∧
    (computeAdded [(10, { path := "/a", worktrees := [5], remoteId := some 100,
                          resharedWith := none })] [⟨10, "/a"⟩] = [] ∧
     computeRemoved [(10, { path := "/a", worktrees := [5], remoteId := some 100,
                            resharedWith := none })] [⟨10, "/a"⟩] = [] ∧
     handle_dev_server_instructions envShareFail
         [(10, { path := "/a", worktrees := [5], remoteId := some 100,
                 resharedWith := none })] [⟨10, "/a"⟩]
       = (none, [(10, { path := "/a", worktrees := [5], remoteId := some 100,
                        resharedWith := none })], [])) :=
  ⟨rfl,
   c3_idempotent envAllOk envShareFail [] [⟨10, "/a"⟩]
     [(10, { path := "/a", worktrees := [5], remoteId := some 100, resharedWith := none })]
     [Event.createProject 10 "/a", Event.shareRPC 10 [5], Event.insertTracked 10] rfl⟩

/-- C4: within a single reconciliation pass, the whole event trace splits into the
addition-side events followed by the removal-side events: every addition (creation,
share RPC, insertion into the tracked map) is fully performed before any removal is
applied, and additions are processed sequentially in payload order. -/
theorem c4_additions_before_removals (env : Env) (m : TrackedMap)
    (D : List RemoteProject) :
    ∃ evsA evsR,
      (handle_dev_server_instructions env m D).2.2 = evsA ++ evsR ∧
      (∀ ev ∈ evsA, isAddEvent ev = true) ∧
      (∀ ev ∈ evsR, isRemoveEvent ev = true) := by
  rcases ha : addAll env 0 m (computeAdded m D) with ⟨r1, m1, evs1⟩
  have hadd : ∀ ev ∈ evs1, isAddEvent ev = true := by
    intro ev hev
    have := addAll_events env (computeAdded m D) 0 m ev
    rw [ha] at this
    exact this hev
  cases r1 with
  | some e =>
    refine ⟨evs1, [], ?_, hadd, by simp⟩
    simp [handle_dev_server_instructions, ha]
  | none =>
    refine ⟨evs1, (removeAll m1 (computeRemoved m D)).2, ?_, hadd,
      removeAll_events (computeRemoved m D) m1⟩
    simp [handle_dev_server_instructions, ha]

/-- C9: registering a new workspace's share issues at most one share RPC (no
automatic retry); if any step fails the error is surfaced, the tracked map is left
unchanged, the workspace's id stays absent, and a later push still listing that id
computes it as an addition again; an `(id, handle)` entry is inserted only when the
register-and-share RPC has succeeded. -/
theorem c9_share_failure_leaves_id_untracked (env : Env) (k : Nat) (m : TrackedMap)
    (rp : RemoteProject) (hm : mapContains m rp.id = false) :
    (share_project env k m rp).2.2.countP (fun ev => isShareRPCEvent ev) ≤ 1 ∧
    (∀ e, (share_project env k m rp).1 = some e →
      (share_project env k m rp).2.1 = m ∧
      mapContains (share_project env k m rp).2.1 rp.id = false ∧
      ∀ P, rp ∈ P → rp ∈ computeAdded (share_project env k m rp).2.1 P) ∧
    ((share_project env k m rp).1 = none →
      ∃ wts pid, env.worktreeOutcome k = Except.ok wts ∧
        env.shareOutcome k = Except.ok pid ∧
        (share_project env k m rp).2.1
          = mapInsert m rp.id
              { path := rp.path, worktrees := wts, remoteId := some pid,
                resharedWith := none }) := by
  rcases hw : env.worktreeOutcome k with e1 | wts
  · simp only [share_project, hw]
    refine ⟨by simp [isShareRPCEvent], fun e he => ⟨by trivial, hm, fun P hP => ?_⟩, by simp⟩
    rw [computeAdded_mem]
    exact ⟨hP, by simp [hm]⟩
  rcases hs : env.shareOutcome k with e1 | pid
  · simp only [share_project, hw, hs]
    refine ⟨by simp [isShareRPCEvent], fun e he => ⟨by trivial, hm, fun P hP => ?_⟩, by simp⟩
    rw [computeAdded_mem]
    exact ⟨hP, by simp [hm]⟩
  · simp only [share_project, hw, hs]
    exact ⟨by simp [isShareRPCEvent], fun e he => by simp at he,
      fun _ => ⟨wts, pid, rfl, rfl, rfl⟩⟩

/-- Witness for C9: the first share RPC of `envShareFail` fails on the fresh id 7;
the failed run leaves the tracked map empty, id 7 untracked. -/
theorem c9_share_failure_leaves_id_untracked_witness :
    (share_project envShareFail 0 [] ⟨7, "/x"⟩).2.1 = [] ∧
    mapContains (share_project envShareFail 0 [] ⟨7, "/x"⟩).2.1 7 = false :=
  ⟨((c9_share_failure_leaves_id_untracked envShareFail 0 [] ⟨7, "/x"⟩ rfl).2.1
      "share failed" rfl).1,
   ((c9_share_failure_leaves_id_untracked envShareFail 0 [] ⟨7, "/x"⟩ rfl).2.1
      "share failed" rfl).2.1⟩

/-- C10: a single push listing the same remote id twice (with different paths) lets
both entries pass the add-diff filter, so two workspaces are created and two
register-and-share RPCs are issued for that id; the handle inserted second silently
replaces the first in the tracked map, and the first is never unshared (the trace
holds no unshare event). -/
theorem c10_duplicate_id_shares_twice (env : Env) (id : Nat) (p1 p2 : String)
    (w0 w1 : List Nat) (q0 q1 : Nat)
    (hw0 : env.worktreeOutcome 0 = Except.ok w0)
    (hw1 : env.worktreeOutcome 1 = Except.ok w1)
    (hs0 : env.shareOutcome 0 = Except.ok q0)
    (hs1 : env.shareOutcome 1 = Except.ok q1) :
    computeAdded [] [⟨id, p1⟩, ⟨id, p2⟩] = [⟨id, p1⟩, ⟨id, p2⟩] ∧
    handle_dev_server_instructions env [] [⟨id, p1⟩, ⟨id, p2⟩]
      = (none,
         [(id, { path := p2, worktrees := w1, remoteId := some q1,
                 resharedWith := none })],
         [Event.createProject id p1, Event.shareRPC id w0, Event.insertTracked id,
          Event.createProject id p2, Event.shareRPC id w1, Event.insertTracked id]) := by
  constructor
  · simp [computeAdded, mapContains]
  · simp [handle_dev_server_instructions, computeAdded, computeRemoved, mapKeys,
      mapContains, addAll, share_project, hw0, hw1, hs0, hs1, removeAll, mapInsert]

/-- Witness for C10: the duplicate push evaluated in the all-success environment. -/
theorem c10_duplicate_id_shares_twice_witness :
    envAllOk.worktreeOutcome 0 = Except.ok [5] ∧
    envAllOk.worktreeOutcome 1 = Except.ok [5] ∧
    envAllOk.shareOutcome 0 = Except.ok 100 ∧
    envAllOk.shareOutcome 1 = Except.ok 101 ∧
    (computeAdded [] [⟨6, "/a"⟩, ⟨6, "/b"⟩] = [⟨6, "/a"⟩, ⟨6, "/b"⟩] ∧
     handle_dev_server_instructions envAllOk [] [⟨6, "/a"⟩, ⟨6, "/b"⟩]
       = (none,
          [(6, { path := "/b", worktrees := [5], remoteId := some 101,
                 resharedWith := none })],
          [Event.createProject 6 "/a", Event.shareRPC 6 [5], Event.insertTracked 6,
           Event.createProject 6 "/b", Event.shareRPC 6 [5], Event.insertTracked 6])) :=
  ⟨rfl, rfl, rfl, rfl,
   c10_duplicate_id_shares_twice envAllOk 6 "/a" "/b" [5] [5] 100 101 rfl rfl rfl rfl⟩

/-! ### The connection supervisor -/

theorem superviseLoop_all_ok (f : Nat → Bool) (h : ∀ j, f j = true) :
    ∀ (updates : List Bool) (k : Nat),
      superviseLoop f updates k = (true, updates.countP (fun s => s)) := by
  intro updates
  induction updates with
  | nil => intro k; simp [superviseLoop]
  | cons s rest ih =>
    intro k
    cases s with
    | true => simp [superviseLoop, h k, ih (k + 1), List.countP_cons]
    | false => simp [superviseLoop, ih k, List.countP_cons]

theorem superviseLoop_first_fail (f : Nat → Bool) (hf : f 0 = false) :
    ∀ updates : List Bool, updates.any (fun s => s) = true →
      superviseLoop f updates 0 = (false, 1) := by
  intro updates
  induction updates with
  | nil => intro h; simp at h
  | cons s rest ih =>
    intro h
    cases s with
    | true => simp [superviseLoop, hf]
    | false =>
      simp only [List.any_cons, Bool.false_or] at h
      simp only [superviseLoop, Bool.false_eq_true, if_false]
      exact ih h

/-! ### Claims about the connection supervisor -/

/-- C5 (divergence witness): a status stream that starts `Connected` and then
reports `Connected` twice more, with no `Disconnected` ever observed, still makes
the supervisor send a resync RPC: `maintain_connection` skips exactly one status
update after a connected start (its comment says "wait for first disconnect", but
it waits for any next status), so the second update triggers a rejoin even though
no `Disconnected → Connected` transition exists in the stream. -/
theorem c5_startup_counted_as_reconnect :
    hasReconnectTransition [true, true, true] = false ∧
    maintain_connection (fun _ => true) true [true, true] = (true, 1) :=
  ⟨rfl, rfl⟩

/-- C8 counterexample: with a disconnected start and updates
`Connected, Disconnected, Connected`, a first resync that fails ends the supervisor
loop with an error after that single resync: the later `Disconnected → Connected`
transition is never reacted to (only 1 resync sent) and the loop does not end
cleanly even though the stream closes. -/
theorem c8_failed_resync_ends_loop_counterexample :
    hasReconnectTransition [false, true, false, true] = true ∧
    maintain_connection (fun _ => false) false [true, false, true] = (false, 1) :=
  ⟨rfl, rfl⟩

/-- C8 (amended): the supervisor loop processes status transitions strictly in
order, awaiting each resync run before the next transition; when every resync run
succeeds, the status stream closing ends the loop cleanly (`true`) after exactly one
resync per connected status observed; but a failing first resync terminates the
loop with an error (`false`) after that single resync, so later status transitions
are not processed. -/
theorem c8_resync_awaited_and_stream_close_clean (f : Nat → Bool)
    (updates : List Bool) :
    maintain_connection f false updates = superviseLoop f updates 0 ∧
    ((∀ j, f j = true) →
      superviseLoop f updates 0 = (true, updates.countP (fun s => s))) ∧
    (f 0 = false → updates.any (fun s => s) = true →
      superviseLoop f updates 0 = (false, 1)) :=
  ⟨rfl, fun h => superviseLoop_all_ok f h updates 0,
   fun hf h => superviseLoop_first_fail f hf updates h⟩

/-- Witness for C8 (amended): an all-success run over `Connected, Disconnected,
Connected` processes both reconnects and exits cleanly when the stream closes. -/
theorem c8_resync_awaited_witness :
    maintain_connection (fun _ => true) false [true, false, true]
      = superviseLoop (fun _ => true) [true, false, true] 0 ∧
    superviseLoop (fun _ => true) [true, false, true] 0
      = (true, [true, false, true].countP (fun s => s)) :=
  ⟨(c8_resync_awaited_and_stream_close_clean (fun _ => true) [true, false, true]).1,
   (c8_resync_awaited_and_stream_close_clean (fun _ => true) [true, false, true]).2.1
     (fun _ => rfl)⟩

/-! ### The resync protocol: snapshot -/

theorem rejoin_build_req (m : TrackedMap) :
    ∀ req byId, (rejoin_build req byId m).1
      = req ++ m.filterMap (fun e =>
          match e.2.remoteId with
          | some pid => some (pid, e.2.worktrees)
          | none => none) := by
  induction m with
  | nil => intro req byId; simp [rejoin_build]
  | cons e rest ih =>
    intro req byId
    rcases e with ⟨k, p⟩
    rcases hr : p.remoteId with _ | pid
    · simp [rejoin_build, hr, ih]
    · simp [rejoin_build, hr, ih]

theorem rejoin_build_req_length (m : TrackedMap)
    (h : ∀ e ∈ m, e.2.remoteId.isSome = true) :
    ((rejoin_build [] [] m).1).length = m.length := by
  rw [rejoin_build_req m [] []]
  simp only [List.nil_append]
  induction m with
  | nil => rfl
  | cons e rest ih =>
    obtain ⟨pid, hpid⟩ := Option.isSome_iff_exists.mp (h e (List.mem_cons_self e rest))
    simp only [List.filterMap_cons, hpid, List.length_cons]
    rw [ih (fun e2 he2 => h e2 (List.mem_cons_of_mem e he2))]

theorem rejoin_build_req_mem (m : TrackedMap) (e : Nat × Proj) (he : e ∈ m)
    (pid : Nat) (hpid : e.2.remoteId = some pid) :
    (pid, e.2.worktrees) ∈ (rejoin_build [] [] m).1 := by
  rw [rejoin_build_req m [] []]
  simp only [List.nil_append, List.mem_filterMap]
  exact ⟨e, he, by rw [hpid]⟩

theorem rejoin_build_byId (m : TrackedMap) :
    ∀ req byId,
      (m.filterMap (fun e => e.2.remoteId)).Nodup →
      (∀ q ∈ m.filterMap (fun e => e.2.remoteId), idMapContains byId q = false) →
      (rejoin_build req byId m).2
        = byId ++ m.filterMap (fun e => e.2.remoteId.map (fun pid => (pid, e.1))) := by
  induction m with
  | nil => intro req byId _ _; simp [rejoin_build]
  | cons e rest ih =>
    intro req byId hnd hfresh
    rcases e with ⟨k, p⟩
    rcases hr : p.remoteId with _ | pid
    · simp only [rejoin_build, hr]
      rw [ih req byId (by simpa [List.filterMap_cons, hr] using hnd)
        (by intro q hq; exact hfresh q (by simpa [List.filterMap_cons, hr] using hq))]
      simp [List.filterMap_cons, hr]
    · simp only [rejoin_build, hr]
      have hpid_mem : pid ∈ (((k, p) :: rest).filterMap (fun e => e.2.remoteId)) := by
        simp [List.filterMap_cons, hr]
      have hins : idMapInsert byId pid k = byId ++ [(pid, k)] := by
        rw [idMapInsert, if_neg]
        rw [hfresh pid hpid_mem]
        simp
      rw [hins]
      have hnd' : (rest.filterMap (fun e => e.2.remoteId)).Nodup := by
        have := hnd
        simp only [List.filterMap_cons, hr] at this
        exact this.of_cons
      have hpid_notin : pid ∉ rest.filterMap (fun e => e.2.remoteId) := by
        have := hnd
        simp only [List.filterMap_cons, hr, List.nodup_cons] at this
        exact this.1
      rw [ih (req ++ [(pid, p.worktrees)]) (byId ++ [(pid, k)]) hnd' ?_]
      · simp [List.filterMap_cons, hr]
      · intro q hq
        have hq_ne : q ≠ pid := fun h => hpid_notin (h ▸ hq)
        have hold : idMapContains byId q = false :=
          hfresh q (by simp [List.filterMap_cons, hr, hq])
        simp only [idMapContains, List.any_append, Bool.or_eq_false_iff]
        refine ⟨?_, ?_⟩
        · rw [show (byId.any fun e => e.1 == q) = idMapContains byId q from rfl, hold]
        · simp [Ne.symm hq_ne]

theorem byId_map_fst (m : TrackedMap) :
    (m.filterMap (fun e => e.2.remoteId.map (fun pid => (pid, e.1)))).map (fun e => e.1)
      = m.filterMap (fun e => e.2.remoteId) := by
  induction m with
  | nil => rfl
  | cons e rest ih =>
    rcases hr : e.2.remoteId with _ | pid
    · simp [List.filterMap_cons, hr, ih]
    · simp [List.filterMap_cons, hr, ih]

theorem idMapLookup_nodup (l : ByRemoteId) (hn : (l.map (fun e => e.1)).Nodup)
    (q v : Nat) : idMapLookup l q = some v ↔ (q, v) ∈ l := by
  induction l with
  | nil => simp [idMapLookup]
  | cons e rest ih =>
    rcases e with ⟨a, b⟩
    simp only [List.map_cons, List.nodup_cons, List.mem_map] at hn
    by_cases ha : a = q
    · subst ha
      constructor
      · intro h
        simp only [idMapLookup] at h
        rw [List.find?_cons_of_pos _ (by simp)] at h
        simp only [Option.map_some'] at h
        rw [Option.some.injEq] at h
        subst h
        exact List.mem_cons_self _ _
      · intro h
        rcases List.mem_cons.mp h with heq | hmem
        · simp only [idMapLookup]
          rw [List.find?_cons_of_pos _ (by simp)]
          rw [Prod.mk.injEq] at heq
          simp [heq.2]
        · exact absurd ⟨(a, v), hmem, rfl⟩ hn.1
    · simp only [idMapLookup]
      rw [List.find?_cons_of_neg _ (by simp [ha])]
      rw [show ((rest.find? (fun e => e.1 == q)).map (fun e => e.2))
            = idMapLookup rest q from rfl]
      rw [ih hn.2]
      simp only [List.mem_cons]
      constructor
      · exact fun h => Or.inr h
      · rintro (heq | hmem)
        · rw [Prod.mk.injEq] at heq
          exact absurd heq.1.symm ha
        · exact hmem

/-- The by-remote-id map of `rejoin` resolves a remote id to the tracked-map key
holding it, provided remote ids are pairwise distinct. -/
theorem rejoin_byId_lookup (m : TrackedMap)
    (hids : (m.filterMap (fun e => e.2.remoteId)).Nodup) (q k : Nat) :
    idMapLookup (rejoin_build [] [] m).2 q = some k ↔
      ∃ p, (k, p) ∈ m ∧ p.remoteId = some q := by
  rw [rejoin_build_byId m [] [] hids (by intro q2 _; rfl)]
  rw [List.nil_append]
  rw [idMapLookup_nodup _ (by rw [byId_map_fst]; exact hids)]
  simp only [List.mem_filterMap, Option.map_eq_some']
  constructor
  · rintro ⟨⟨k2, p⟩, hmem, pid, hpid, heq⟩
    rw [Prod.mk.injEq] at heq
    exact ⟨p, by rwa [← heq.2], by rw [hpid, heq.1]⟩
  · rintro ⟨p, hmem, hpid⟩
    exact ⟨(k, p), hmem, q, hpid, rfl⟩

/-! ### The resync protocol: applying the response -/

theorem markReshared_head_fst (e : Nat × Proj) (key : Nat) (r : ResharedProject) :
    (if e.1 == key then (e.1, { e.2 with resharedWith := some r }) else e).1 = e.1 := by
  by_cases hkey : e.1 = key
  · rw [if_pos (by simp [hkey])]
  · rw [if_neg (by simp [hkey])]

theorem markReshared_lookup_ne (m : TrackedMap) (key : Nat) (r : ResharedProject)
    (k : Nat) (h : k ≠ key) :
    mapLookup (markReshared m key r) k = mapLookup m k := by
  induction m with
  | nil => rfl
  | cons e rest ih =>
    simp only [markReshared, List.map_cons] at ih ⊢
    by_cases hk : e.1 = k
    · have hcond : (if e.1 == key then (e.1, { e.2 with resharedWith := some r }) else e)
          = e := by
        rw [if_neg]
        simp [hk, h]
      rw [hcond]
      simp only [mapLookup]
      rw [List.find?_cons_of_pos _ (by simp [hk]), List.find?_cons_of_pos _ (by simp [hk])]
    · simp only [mapLookup]
      rw [List.find?_cons_of_neg _ (by rw [markReshared_head_fst]; simp [hk]),
        List.find?_cons_of_neg _ (by simp [hk])]
      exact ih

theorem markReshared_lookup_self (m : TrackedMap) (key : Nat) (r : ResharedProject) :
    mapLookup (markReshared m key r) key
      = (mapLookup m key).map (fun p => { p with resharedWith := some r }) := by
  induction m with
  | nil => rfl
  | cons e rest ih =>
    simp only [markReshared, List.map_cons] at ih ⊢
    by_cases he : e.1 = key
    · have hcond : (if e.1 == key then (e.1, { e.2 with resharedWith := some r }) else e)
          = (e.1, { e.2 with resharedWith := some r }) := by
        rw [if_pos (by simp [he])]
      rw [hcond]
      simp only [mapLookup]
      rw [List.find?_cons_of_pos _ (by simp [he]), List.find?_cons_of_pos _ (by simp [he])]
      simp
    · have hcond : (if e.1 == key then (e.1, { e.2 with resharedWith := some r }) else e)
          = e := by
        rw [if_neg (by simp [he])]
      rw [hcond]
      simp only [mapLookup]
      rw [List.find?_cons_of_neg _ (by simp [he]), List.find?_cons_of_neg _ (by simp [he])]
      exact ih

theorem markReshared_keys (m : TrackedMap) (key : Nat) (r : ResharedProject) :
    mapKeys (markReshared m key r) = mapKeys m := by
  induction m with
  | nil => rfl
  | cons e rest ih =>
    simp only [markReshared, List.map_cons, mapKeys] at ih ⊢
    rw [markReshared_head_fst, ih]

theorem applyResync_keys (f : Nat → Bool) (byId : ByRemoteId) :
    ∀ (resp : List ResharedProject) (m : TrackedMap),
      mapKeys (applyResync f byId m resp).1 = mapKeys m := by
  intro resp
  induction resp with
  | nil => intro m; rfl
  | cons r rest ih =>
    intro m
    rcases hl : idMapLookup byId r.id with _ | key
    · simp only [applyResync, hl]
      exact ih m
    · simp only [applyResync, hl]
      rw [ih]
      by_cases hok : f r.id = true
      · rw [if_pos hok, markReshared_keys]
      · rw [if_neg hok]

theorem applyResync_untouched (f : Nat → Bool) (byId : ByRemoteId) (k : Nat) :
    ∀ (resp : List ResharedProject) (m : TrackedMap),
      (∀ r ∈ resp, idMapLookup byId r.id = some k → f r.id = false) →
      mapLookup (applyResync f byId m resp).1 k = mapLookup m k := by
  intro resp
  induction resp with
  | nil => intro m _; rfl
  | cons r rest ih =>
    intro m h
    rcases hl : idMapLookup byId r.id with _ | key
    · simp only [applyResync, hl]
      exact ih m (fun r2 hr2 => h r2 (List.mem_cons_of_mem r hr2))
    · simp only [applyResync, hl]
      rw [ih _ (fun r2 hr2 => h r2 (List.mem_cons_of_mem r hr2))]
      by_cases hkey : key = k
      · subst hkey
        have : f r.id = false := h r (List.mem_cons_self r rest) hl
        rw [this]
        simp
      · by_cases hok : f r.id = true
        · rw [if_pos hok, markReshared_lookup_ne m key r k (Ne.symm hkey)]
        · rw [if_neg hok]

theorem applyResync_marked (f : Nat → Bool) (byId : ByRemoteId) (k : Nat)
    (r : ResharedProject) (hlr : idMapLookup byId r.id = some k)
    (hok : f r.id = true) :
    ∀ (pre suf : List ResharedProject) (m : TrackedMap),
      (∀ r2 ∈ pre, idMapLookup byId r2.id = some k → False) →
      (∀ r2 ∈ suf, idMapLookup byId r2.id = some k → False) →
      mapLookup (applyResync f byId m (pre ++ r :: suf)).1 k
        = (mapLookup m k).map (fun p => { p with resharedWith := some r }) := by
  intro pre
  induction pre with
  | nil =>
    intro suf m _ hsuf
    simp only [List.nil_append, applyResync, hlr]
    rw [if_pos hok]
    rw [applyResync_untouched f byId k suf _
      (fun r2 hr2 hl2 => absurd hl2 (fun hl2 => hsuf r2 hr2 hl2))]
    exact markReshared_lookup_self m k r
  | cons r2 rest ih =>
    intro suf m hpre hsuf
    rw [List.cons_append]
    rcases hl2 : idMapLookup byId r2.id with _ | key2
    · simp only [applyResync, hl2]
      exact ih suf m (fun r3 hr3 => hpre r3 (List.mem_cons_of_mem r2 hr3)) hsuf
    · have hkey2 : key2 ≠ k := by
        intro hk
        subst hk
        exact hpre r2 (List.mem_cons_self r2 rest) hl2
      simp only [applyResync, hl2]
      rw [ih suf _ (fun r3 hr3 => hpre r3 (List.mem_cons_of_mem r2 hr3)) hsuf]
      by_cases hok2 : f r2.id = true
      · rw [if_pos hok2, markReshared_lookup_ne m key2 r2 k (Ne.symm hkey2)]
      · rw [if_neg hok2]

theorem applyResync_no_resync (f : Nat → Bool) (byId : ByRemoteId) :
    ∀ (resp : List ResharedProject) (m : TrackedMap),
      (applyResync f byId m resp).2.countP (fun ev => isResyncEvent ev) = 0 := by
  intro resp
  induction resp with
  | nil => intro m; rfl
  | cons r rest ih =>
    intro m
    rcases hl : idMapLookup byId r.id with _ | key
    · simp only [applyResync, hl]
      exact ih m
    · simp only [applyResync, hl]
      rw [List.countP_cons]
      rw [ih (if f r.id = true then markReshared m key r else m)]
      simp [isResyncEvent]

theorem mapLookup_nodup (m : TrackedMap) (hn : (mapKeys m).Nodup) (k : Nat) (p : Proj) :
    mapLookup m k = some p ↔ (k, p) ∈ m := by
  induction m with
  | nil => simp [mapLookup]
  | cons e rest ih =>
    rcases e with ⟨a, b⟩
    simp only [mapKeys, List.map_cons, List.nodup_cons, List.mem_map] at hn
    by_cases ha : a = k
    · subst ha
      constructor
      · intro h
        simp only [mapLookup] at h
        rw [List.find?_cons_of_pos _ (by simp)] at h
        simp only [Option.map_some'] at h
        rw [Option.some.injEq] at h
        subst h
        exact List.mem_cons_self _ _
      · intro h
        rcases List.mem_cons.mp h with heq | hmem
        · simp only [mapLookup]
          rw [List.find?_cons_of_pos _ (by simp)]
          rw [Prod.mk.injEq] at heq
          simp [heq.2]
        · exact absurd ⟨(a, p), hmem, rfl⟩ hn.1
    · simp only [mapLookup]
      rw [List.find?_cons_of_neg _ (by simp [ha])]
      rw [show ((rest.find? (fun e => e.1 == k)).map (fun e => e.2))
            = mapLookup rest k from rfl]
      rw [ih (by simpa [mapKeys] using hn.2)]
      simp only [List.mem_cons]
      constructor
      · exact fun h => Or.inr h
      · rintro (heq | hmem)
        · rw [Prod.mk.injEq] at heq
          exact absurd heq.1.symm ha
        · exact hmem

/-! ### Claims about the resync protocol -/

/-- C6: on a reconnect, `rejoin` sends exactly one resync RPC, and its payload
carries, for every currently tracked workspace (all of which hold a remote numeric
project id), that prior remote id together with its current worktree descriptors:
the payload has one entry per tracked workspace and contains each workspace's
`(remote id, descriptors)` pair. -/
theorem c6_single_resync_rpc_with_full_payload (f : Nat → Bool) (m : TrackedMap)
    (resp : List ResharedProject)
    (hsome : ∀ e ∈ m, e.2.remoteId.isSome = true) :
    (rejoin f m resp).2.countP (fun ev => isResyncEvent ev) = 1 ∧
    Event.resyncRPC ((rejoin_build [] [] m).1) ∈ (rejoin f m resp).2 ∧
    ((rejoin_build [] [] m).1).length = m.length ∧
    ∀ e ∈ m, ∃ pid, e.2.remoteId = some pid ∧
      (pid, e.2.worktrees) ∈ (rejoin_build [] [] m).1 := by
  have hev : (rejoin f m resp).2
      = Event.resyncRPC (rejoin_build [] [] m).1
          :: (applyResync f (rejoin_build [] [] m).2 m resp).2 := rfl
  refine ⟨?_, ?_, rejoin_build_req_length m hsome, ?_⟩
  · rw [hev, List.countP_cons, applyResync_no_resync]
    simp [isResyncEvent]
  · rw [hev]
    exact List.mem_cons_self _ _
  · intro e he
    obtain ⟨pid, hpid⟩ := Option.isSome_iff_exists.mp (hsome e he)
    exact ⟨pid, hpid, rejoin_build_req_mem m e he pid hpid⟩

/-- Witness for C6: the three-workspace session, resync response empty. -/
theorem c6_single_resync_rpc_witness :
    (rejoin (fun _ => true) trackedThree []).2.countP (fun ev => isResyncEvent ev) = 1 :=
  (c6_single_resync_rpc_with_full_payload (fun _ => true) trackedThree []
    (by decide)).1

/-- C7: applying a resync response never drops a tracked workspace (the key set is
preserved); a tracked workspace whose remote id is absent from the response is left
completely unchanged (in particular not marked reshared); a tracked workspace whose
remote id appears in the response is marked reshared with that response entry when
its re-apply succeeds, and is merely skipped — still tracked, unchanged — when its
re-apply fails, without affecting the other workspaces. -/
theorem c7_partial_resync_tolerance (f : Nat → Bool) (m : TrackedMap)
    (resp : List ResharedProject) (k : Nat) (p : Proj) (pid : Nat)
    (hkeys : (mapKeys m).Nodup)
    (hids : (m.filterMap (fun e => e.2.remoteId)).Nodup)
    (hresp : (resp.map (fun r => r.id)).Nodup)
    (hm : (k, p) ∈ m) (hpid : p.remoteId = some pid) :
    mapKeys (rejoin f m resp).1 = mapKeys m ∧
    ((∀ r ∈ resp, r.id ≠ pid) → mapLookup (rejoin f m resp).1 k = some p) ∧
    (∀ r ∈ resp, r.id = pid → f pid = true →
      mapLookup (rejoin f m resp).1 k = some { p with resharedWith := some r }) ∧
    (∀ r ∈ resp, r.id = pid → f pid = false →
      mapLookup (rejoin f m resp).1 k = some p) := by
  have hfst : (rejoin f m resp).1
      = (applyResync f (rejoin_build [] [] m).2 m resp).1 := rfl
  have hlk : mapLookup m k = some p := (mapLookup_nodup m hkeys k p).mpr hm
  have huniq : ∀ p2 : Proj, (k, p2) ∈ m → p2 = p := by
    intro p2 hp2
    have := (mapLookup_nodup m hkeys k p2).mpr hp2
    rw [hlk] at this
    exact (Option.some.inj this).symm
  have hA : ∀ r ∈ resp, idMapLookup (rejoin_build [] [] m).2 r.id = some k →
      r.id = pid := by
    intro r _ hl
    obtain ⟨p2, hp2m, hp2id⟩ := (rejoin_byId_lookup m hids r.id k).mp hl
    rw [huniq p2 hp2m] at hp2id
    rw [hpid] at hp2id
    exact (Option.some.inj hp2id).symm
  have hbyk : idMapLookup (rejoin_build [] [] m).2 pid = some k :=
    (rejoin_byId_lookup m hids pid k).mpr ⟨p, hm, hpid⟩
  refine ⟨?_, ?_, ?_, ?_⟩
  · rw [hfst]
    exact applyResync_keys f _ resp m
  · intro hnone
    rw [hfst]
    rw [applyResync_untouched f _ k resp m
      (fun r hr hl => absurd (hA r hr hl) (hnone r hr))]
    exact hlk
  · intro r hr hrid hfok
    obtain ⟨pre, suf, hsplit⟩ := List.append_of_mem hr
    subst hsplit
    rw [List.map_append, List.map_cons] at hresp
    rw [List.nodup_append] at hresp
    obtain ⟨hpre_nd, hcons_nd, hdisj⟩ := hresp
    obtain ⟨hnotin_suf, _⟩ := List.nodup_cons.mp hcons_nd
    have hpreF : ∀ r2 ∈ pre, idMapLookup (rejoin_build [] [] m).2 r2.id = some k →
        False := by
      intro r2 hr2 hl2
      have h2id : r2.id = pid := hA r2 (List.mem_append_left _ hr2) hl2
      exact hdisj (List.mem_map.mpr ⟨r2, hr2, rfl⟩)
        (by rw [h2id, ← hrid]; exact List.mem_cons_self _ _)
    have hsufF : ∀ r2 ∈ suf, idMapLookup (rejoin_build [] [] m).2 r2.id = some k →
        False := by
      intro r2 hr2 hl2
      have h2id : r2.id = pid := hA r2
        (List.mem_append_right _ (List.mem_cons_of_mem _ hr2)) hl2
      exact hnotin_suf (List.mem_map.mpr ⟨r2, hr2, by rw [h2id, hrid]⟩)
    rw [hfst]
    rw [applyResync_marked f _ k r (by rw [hrid]; exact hbyk) (by rw [hrid]; exact hfok)
      pre suf m hpreF hsufF]
    rw [hlk]
    rfl
  · intro r _ hrid hfnot
    rw [hfst]
    rw [applyResync_untouched f _ k resp m ?_]
    · exact hlk
    · intro r2 hr2 hl2
      rw [hA r2 hr2 hl2]
      exact hfnot

/-- Witness for C7: the three-workspace session against the response
`[{id := 70}, {id := 90}]`; the workspace with remote id 80 keeps its key set. -/
theorem c7_partial_resync_tolerance_witness :
    mapKeys (rejoin (fun _ => true) trackedThree
        [⟨70, [17]⟩, ⟨90, [19]⟩]).1 = mapKeys trackedThree :=
  (c7_partial_resync_tolerance (fun _ => true) trackedThree
    [⟨70, [17]⟩, ⟨90, [19]⟩] 2
    { path := "/b", worktrees := [8], remoteId := some 80, resharedWith := none } 80
    (by decide) (by decide) (by decide) (by decide) rfl).1

end Headless
